import Mathlib

set_option maxRecDepth 8000

/-!
Verification of the normalization engine in `scripts/build_competitions_seed.py`.

Strings are modelled as `List Char`; a Python string `s` corresponds to
`s.toList`.  Python exceptions (e.g. `datetime.date` rejecting an invalid
calendar date) are modelled by `Option`: `none` is a raised exception.
Regular-expression searches (`FULL_DATE_RE`, `MD_RE`, `PAREN_RE`) are
embedded as explicit leftmost-match scans; `\d` is modelled as an ASCII
decimal digit, which covers all inputs the script receives.
-/

def BASE_YEAR : Nat := 2026

/-- Python whitespace, as stripped by `str.strip()` / matched by `\s`
(ASCII whitespace plus the NBSP and ideographic-space code points that
occur in this data). -/
def isPySpace (c : Char) : Bool :=
  c == ' ' || c == '\t' || c == '\n' || c == '\r' || c == '\x0b' || c == '\x0c' ||
  c == ' ' || c == '　'

/-- `re.sub(r"\s+", "", s)`: delete every whitespace character. -/
def removeWs (l : List Char) : List Char := l.filter (fun c => !isPySpace c)

/-- Python `str.strip()` with no argument; `List.rdropWhile` trims the
right end. -/
def pyStrip (l : List Char) : List Char :=
  List.rdropWhile isPySpace (l.dropWhile isPySpace)

/-- Python `str.strip(chars)`: trim any of the characters in `cs` from both ends. -/
def pyStripSet (cs : List Char) (l : List Char) : List Char :=
  List.rdropWhile (fun c => cs.contains c) (l.dropWhile (fun c => cs.contains c))

/-- Python `needle in haystack` (substring containment). -/
def pyContains (n : List Char) : List Char → Bool
  | [] => n.isEmpty
  | c :: rest => n.isPrefixOf (c :: rest) || pyContains n rest

/-- One full-width or ASCII opening parenthesis, as in `PAREN_RE`. -/
def isOpenParen (c : Char) : Bool := c == '（' || c == '('

/-- One full-width or ASCII closing parenthesis, as in `PAREN_RE`. -/
def isCloseParen (c : Char) : Bool := c == '）' || c == ')'

def isParenChar (c : Char) : Bool := isOpenParen c || isCloseParen c

/-- After an opening parenthesis, try to match `[^（）()]*[）)]`: scan
non-parenthesis characters until a closing parenthesis.  Returns the group
content and the remainder after the closing parenthesis, or `none` when an
opening parenthesis or the end of input intervenes (the regex fails at this
position). -/
def tryGroup : List Char → Option (List Char × List Char)
  | [] => none
  | c :: rest =>
    if isCloseParen c then some ([], rest)
    else if isOpenParen c then none
    else (tryGroup rest).map (fun pr => (c :: pr.1, pr.2))

/-- `PAREN_RE.findall`: contents of all leftmost non-overlapping
`[（(][^（）()]*[）)]` matches.  Fuel-indexed structural recursion; the fuel
is always instantiated with the input length, which suffices because every
step consumes at least one character. -/
def collectParensF : Nat → List Char → List (List Char)
  | 0, _ => []
  | _ + 1, [] => []
  | f + 1, c :: rest =>
    if isOpenParen c then
      match tryGroup rest with
      | some (content, rest2) => content :: collectParensF f rest2
      | none => collectParensF f rest
    else collectParensF f rest

def collectParens (l : List Char) : List (List Char) := collectParensF l.length l

/-- `re.sub(r"[（(][^（）()]*[）)]", "", s)`: delete all such matches. -/
def removeParensF : Nat → List Char → List Char
  | 0, l => l
  | _ + 1, [] => []
  | f + 1, c :: rest =>
    if isOpenParen c then
      match tryGroup rest with
      | some (_, rest2) => removeParensF f rest2
      | none => c :: removeParensF f rest
    else c :: removeParensF f rest

def removeParens (l : List Char) : List Char := removeParensF l.length l

/-- Python `s.replace(t, "")` for a non-empty needle `t`: delete leftmost
non-overlapping occurrences, scanning left to right. -/
def removeSubF : Nat → List Char → List Char → List Char
  | 0, _, s => s
  | _ + 1, _, [] => []
  | f + 1, t, c :: rest =>
    if !t.isEmpty && t.isPrefixOf (c :: rest) then
      removeSubF f t (rest.drop (t.length - 1))
    else c :: removeSubF f t rest

def pyReplaceEmpty (t s : List Char) : List Char := removeSubF s.length t s

/-- Python `s.split(sep, 1)`: the part before the first occurrence of `sep`,
and the part after it (when `sep` does not occur, the whole string and `[]`). -/
def splitFirst (sep : List Char) : List Char → List Char × List Char
  | [] => ([], [])
  | c :: rest =>
    if sep.isPrefixOf (c :: rest) then ([], (c :: rest).drop sep.length)
    else
      let pr := splitFirst sep rest
      (c :: pr.1, pr.2)

/-- Python `s.split(sep)` (full split, non-empty separator). -/
def splitAllF : Nat → List Char → List Char → List (List Char)
  | 0, _, s => [s]
  | _ + 1, _, [] => [[]]
  | f + 1, sep, c :: rest =>
    if !sep.isEmpty && sep.isPrefixOf (c :: rest) then
      [] :: splitAllF f sep (rest.drop (sep.length - 1))
    else
      match splitAllF f sep rest with
      | [] => [[c]]
      | h :: tl => (c :: h) :: tl

def pySplit (sep s : List Char) : List (List Char) := splitAllF s.length sep s

/-! ## Label Resolver (`clean_label`, `extract_label`, `label_keys`) -/

def NOISE_TOKENS : List (List Char) :=
  ["推测", "正式报名", "正式", "已结束", "推定", "预计"].map String.toList

def COLON_CHARS : List Char := ['：', ':']

/-- `clean_label` (source lines 39-46): drop all whitespace, delete each
noise token, strip colons from both ends. -/
def clean_label (label : List Char) : List Char :=
  if label.isEmpty then []
  else
    let x := removeWs label
    let x := NOISE_TOKENS.foldl (fun a t => pyReplaceEmpty t a) x
    pyStripSet COLON_CHARS x

def LABEL_SEPS : List (List Char) :=
  ["/", "／", "与", "和", "及", "、"].map String.toList

def LABEL_SUFFIXES : List (List Char) :=
  ["赛道", "赛区", "赛项", "组别", "组"].map String.toList

def KEY_BLACKLIST : List (List Char) := ["推测", "官方"].map String.toList

/-- `label_keys` (source lines 49-68): the cleaned label, plus each part of
it split at any contained conjunction separator, plus each current key with
a category suffix stripped (when the remainder is non-empty), with empty
and blacklisted keys removed.  Python's `set` is modelled as `Finset`. -/
def label_keys (label : List Char) : Finset (List Char) :=
  let c := clean_label label
  if c.isEmpty then ∅
  else
    let base := c :: LABEL_SEPS.foldr
      (fun sep acc =>
        if pyContains sep c then (pySplit sep c).filter (fun p => !p.isEmpty) ++ acc
        else acc) []
    let more := base.foldr
      (fun k acc => LABEL_SUFFIXES.foldr
        (fun suf acc2 =>
          if suf.isSuffixOf k && decide (suf.length < k.length) then
            k.take (k.length - suf.length) :: acc2
          else acc2) acc) []
    ((base ++ more).filter
      (fun k => !k.isEmpty && !KEY_BLACKLIST.contains k)).toFinset

/-- `extract_label` (source lines 214-216): the last parenthetical group,
stripped; `""` when there is none. -/
def extract_label (part : List Char) : List Char :=
  match (collectParens part).getLast? with
  | some lab => pyStrip lab
  | none => []

def option_keyset (part : List Char) : Finset (List Char) :=
  label_keys (extract_label part)

/-! ## Dates (`datetime.date` and `DateRange`) -/

structure PyDate where
  year : Nat
  month : Nat
  day : Nat
deriving DecidableEq

def isLeapYear (y : Nat) : Bool :=
  y % 4 == 0 && (y % 100 != 0 || y % 400 == 0)

def daysInMonth (y m : Nat) : Nat :=
  if m == 2 then (if isLeapYear y then 29 else 28)
  else if [4, 6, 9, 11].contains m then 30
  else 31

/-- The calendar-validity check performed by `datetime.date`. -/
def isValidDate (y m d : Nat) : Bool :=
  1 ≤ y && y ≤ 9999 && 1 ≤ m && m ≤ 12 && 1 ≤ d && d ≤ daysInMonth y m

/-- The `date(y, m, d)` constructor; `none` models a raised `ValueError`. -/
def mkDate (y m d : Nat) : Option PyDate :=
  if isValidDate y m d then some ⟨y, m, d⟩ else none

/-- `DateRange` (source lines 71-74); `stop` embeds the Python field `end`. -/
structure DateRange where
  start : Option PyDate
  stop : Option PyDate
deriving DecidableEq

/-! ## Regex searches -/

/-- Try `FULL_DATE_RE` = `(\d{4})-(\d{2})-(\d{2})` at the head of the list. -/
def dval (c : Char) : Nat := c.toNat - '0'.toNat

def matchFull : List Char → Option (Nat × Nat × Nat)
  | a :: b :: c :: d :: e :: f :: g :: h :: i :: j :: _ =>
    if a.isDigit && b.isDigit && c.isDigit && d.isDigit && e == '-' &&
       f.isDigit && g.isDigit && h == '-' && i.isDigit && j.isDigit then
      some (((dval a * 10 + dval b) * 10 + dval c) * 10 + dval d,
            dval f * 10 + dval g, dval i * 10 + dval j)
    else none
  | _ => none

/-- `FULL_DATE_RE.search`: leftmost match. -/
def searchFull : List Char → Option (Nat × Nat × Nat)
  | [] => none
  | c :: rest =>
    match matchFull (c :: rest) with
    | some r => some r
    | none => searchFull rest

/-- Try `MD_RE` = `(\d{2})-(\d{2})` at the head of the list. -/
def matchMD : List Char → Option (Nat × Nat)
  | a :: b :: c :: d :: e :: _ =>
    if a.isDigit && b.isDigit && c == '-' && d.isDigit && e.isDigit then
      some (dval a * 10 + dval b, dval d * 10 + dval e)
    else none
  | _ => none

/-- `MD_RE.search`: leftmost match. -/
def searchMD : List Char → Option (Nat × Nat)
  | [] => none
  | c :: rest =>
    match matchMD (c :: rest) with
    | some r => some r
    | none => searchMD rest

/-! ## Date Inference Engine (`infer_year_for_mmdd`, `parse_range`) -/

def resTag : List Char := "res".toList

/-- `infer_year_for_mmdd` (source lines 77-89). -/
def infer_year_for_mmdd (mm _dd : Nat) (start_mm start_year : Option Nat)
    (context : List Char) : Nat :=
  match start_year, start_mm with
  | some sy, some sm => if mm < sm then sy + 1 else sy
  | _, _ =>
    match start_mm with
    | some sm =>
      if mm < sm then (if context = resTag then BASE_YEAR + 1 else BASE_YEAR)
      else BASE_YEAR
    | none => BASE_YEAR

/-- The start/end year pair chosen for a `至`-range whose two sides are
both year-less month-day pairs (source lines 150-161): on a wrap
(start month after end month), context "res" gets (BASE_YEAR, BASE_YEAR+1)
and any other context (BASE_YEAR−1, BASE_YEAR); otherwise both ends get
BASE_YEAR. -/
def crossYearPair (sm em : Nat) (context : List Char) : Nat × Nat :=
  if em < sm then
    (if context = resTag then (BASE_YEAR, BASE_YEAR + 1)
     else (BASE_YEAR - 1, BASE_YEAR))
  else (BASE_YEAR, BASE_YEAR)

def sentinelNotAnnounced : List Char := "未公布".toList

def atMark : List Char := "至".toList

def stopMark : List Char := "止".toList

def cutoffMark : List Char := "截止".toList

/-- The preprocessing of `parse_range` (source lines 99-106): strip
parenthetical annotations, drop whitespace, and truncate at a `止`/`截止`
cutoff marker when no range marker `至` is present. -/
def preprocessed (seg : List Char) : List Char :=
  let s := pyStrip seg
  let t0 := removeWs (removeParens s)
  let t1 :=
    if pyContains stopMark t0 && !pyContains atMark t0 then (splitFirst stopMark t0).1
    else t0
  if pyContains cutoffMark t1 && !pyContains atMark t1 then (splitFirst cutoffMark t1).1
  else t1

/-- The `至`-range branch of `parse_range` (source lines 108-163), applied to
the two halves. -/
def parseRangeAt (left right context : List Char) : Option DateRange :=
  match searchFull right with
  | some (ey, em, ed) =>
    (mkDate ey em ed).bind (fun endD =>
      match searchFull left with
      | some (sy, sm, sd) =>
        (mkDate sy sm sd).map (fun sD => ⟨some sD, some endD⟩)
      | none =>
        match searchMD left with
        | some (sm, sd) =>
          let sy := if em < sm then ey - 1 else ey
          (mkDate sy sm sd).map (fun sD => ⟨some sD, some endD⟩)
        | none => some ⟨none, some endD⟩)
  | none =>
    match searchMD right with
    | none => some ⟨none, none⟩
    | some (em, ed) =>
      match searchFull left with
      | some (sy, sm, sd) =>
        (mkDate sy sm sd).bind (fun sD =>
          let ey := infer_year_for_mmdd em ed (some sm) (some sy) context
          (mkDate ey em ed).map (fun eD => ⟨some sD, some eD⟩))
      | none =>
        match searchMD left with
        | none => (mkDate BASE_YEAR em ed).map (fun eD => ⟨none, some eD⟩)
        | some (sm, sd) =>
          let yrs := crossYearPair sm em context
          (mkDate yrs.1 sm sd).bind (fun sD =>
            (mkDate yrs.2 em ed).map (fun eD => ⟨some sD, some eD⟩))

/-- `parse_range` (source lines 92-179).  `none` models a raised exception
(an invalid calendar date); `some ⟨none, none⟩` is the absent/absent range. -/
def parse_range (seg : List Char) (context : List Char) : Option DateRange :=
  if seg.isEmpty then some ⟨none, none⟩
  else
    let s := pyStrip seg
    if s.isEmpty || pyContains sentinelNotAnnounced s then some ⟨none, none⟩
    else
      let t := preprocessed seg
      if pyContains atMark t then
        parseRangeAt (splitFirst atMark t).1 (splitFirst atMark t).2 context
      else
        match searchFull t with
        | some (y, m, d) => (mkDate y m d).map (fun dd => ⟨some dd, some dd⟩)
        | none =>
          match searchMD t with
          | some (m, d) => (mkDate BASE_YEAR m d).map (fun dd => ⟨some dd, some dd⟩)
          | none => some ⟨none, none⟩

/-! ## Segmenter (`split_cell`) -/

def TOP_LEVEL_SEPS : List Char := [',', '，', ';', '；', '|', '/']

/-- The bracket-depth update of the segmenter's scan: open parentheses
increment; close parentheses decrement, floored at 0 (`max(0, depth - 1)`
is natural-number subtraction). -/
def depthStep (d : Nat) (ch : Char) : Nat :=
  if isOpenParen ch then d + 1 else if isCloseParen ch then d - 1 else d

/-- One step of the `split_cell` scan (source lines 193-206); the state is
(emitted fragments, current buffer, bracket depth). -/
def scStep (st : List (List Char) × List Char × Nat) (ch : Char) :
    List (List Char) × List Char × Nat :=
  let depth := depthStep st.2.2 ch
  if depth == 0 && TOP_LEVEL_SEPS.contains ch then
    let part := pyStrip st.2.1
    (if part.isEmpty then st.1 else st.1 ++ [part], [], depth)
  else (st.1, st.2.1 ++ [ch], depth)

/-- `split_cell` (source lines 182-211). -/
def split_cell (cell : List Char) : List (List Char) :=
  if cell.isEmpty then []
  else
    let c := pyStrip cell
    if c.isEmpty then []
    else
      let st := c.foldl scStep ([], [], 0)
      let tail := pyStrip st.2.1
      if tail.isEmpty then st.1 else st.1 ++ [tail]

/-! ## Variant Matcher (`best_match`) -/

/-- The list comprehension at source line 229: fragments with no
extractable/cleaned label. -/
def unlabeledFrags (parts : List (List Char)) : List (List Char) :=
  parts.filter (fun p => (clean_label (extract_label p)).isEmpty)

/-- The scoring loop of `best_match` (source lines 234-240): fold over the
fragments keeping the first fragment whose intersection score strictly
exceeds the best so far. -/
def bmStep (vkeys : Finset (List Char)) (acc : Option (List Char) × Nat)
    (p : List Char) : Option (List Char) × Nat :=
  let score := (option_keyset p ∩ vkeys).card
  if acc.2 < score then (some p, score) else acc

/-- `best_match` (source lines 223-244).  The conditional expression at
source line 232 is rendered as the second and third branches; Python's
`and` short-circuits there, so `unlabeled` is only consulted when
`want_unlabeled` is true. -/
def best_match (parts : List (List Char)) (vkeys : Finset (List Char))
    (want_unlabeled : Bool) : Option (List Char) :=
  if parts.isEmpty then none
  else if vkeys = ∅ then
    let unlabeled := unlabeledFrags parts
    if want_unlabeled && unlabeled.length == 1 then unlabeled.head?
    else if parts.length == 1 then parts.head?
    else if want_unlabeled && !unlabeled.isEmpty then unlabeled.head?
    else none
  else
    let r := parts.foldl (bmStep vkeys) ((none : Option (List Char)), 0)
    if 0 < r.2 then r.1
    else if parts.length == 1 then parts.head? else none

/-! ## Output serialization and final deduplication -/

/-- One decimal digit character, `n % 10` rendered as in `%d` formatting. -/
def dchar (n : Nat) : Char :=
  if n % 10 = 0 then '0' else if n % 10 = 1 then '1' else if n % 10 = 2 then '2'
  else if n % 10 = 3 then '3' else if n % 10 = 4 then '4' else if n % 10 = 5 then '5'
  else if n % 10 = 6 then '6' else if n % 10 = 7 then '7' else if n % 10 = 8 then '8'
  else '9'

def pad4 (n : Nat) : List Char := [dchar (n / 1000), dchar (n / 100), dchar (n / 10), dchar n]

def pad2 (n : Nat) : List Char := [dchar (n / 10), dchar n]

/-- `date.isoformat()` as used by `iso` (source lines 280-281):
zero-padded `yyyy-mm-dd`. -/
def isoChars (d : PyDate) : List Char :=
  pad4 d.year ++ ('-' :: (pad2 d.month ++ ('-' :: pad2 d.day)))

/-- The round-trip serialization described by the spec: each present end in
ISO form, joined with the range marker `至` when both ends are present. -/
def rangeToText (r : DateRange) : List Char :=
  match r.start, r.stop with
  | some s, some e => isoChars s ++ ('至' :: isoChars e)
  | some s, none => isoChars s
  | none, some e => isoChars e
  | none, none => []

/-- An output row of `build_seed_rows`, reduced to the fields the final
dedup pass inspects: its `id` and (standing for all remaining fields) an
opaque payload. -/
structure SeedRow where
  id : List Char
  payload : List Char
deriving DecidableEq

/-- The final dedup pass of `build_seed_rows` (source lines 346-354): keep
a row only when its id has not been seen before. -/
def dedupGo (seen : List (List Char)) : List SeedRow → List SeedRow
  | [] => []
  | o :: rest =>
    if o.id ∈ seen then dedupGo seen rest
    else o :: dedupGo (o.id :: seen) rest

def dedup_by_id (out : List SeedRow) : List SeedRow := dedupGo [] out

/-! ## Spec-side predicates and refinements -/

/-- "Every separator occurs at bracket depth > 0": the scan of the
segmenter never reaches a separator character at depth 0. -/
def noTopSep : Nat → List Char → Bool
  | _, [] => true
  | d, ch :: rest =>
    !(depthStep d ch == 0 && TOP_LEVEL_SEPS.contains ch) &&
      noTopSep (depthStep d ch) rest

/-- Parentheses are balanced: scanning from depth `d`, no closing
parenthesis appears at depth 0 and the final depth is 0. -/
def balancedFrom : Nat → List Char → Bool
  | d, [] => d == 0
  | d, ch :: rest =>
    if isCloseParen ch then decide (0 < d) && balancedFrom (d - 1) rest
    else balancedFrom (depthStep d ch) rest

/-- The claim's hypothesis for the segmenter: every top-level separator
character occurs only inside balanced parentheses. -/
def sepsOnlyInParens (l : List Char) : Bool :=
  balancedFrom 0 l && noTopSep 0 l

/-- Modelled from the amended claim for the unlabeled pseudo-variant: one
unlabeled fragment wins; else a sole fragment wins; else the first
unlabeled fragment (if any) wins; else no match. -/
def unlabeled_choice_spec (parts : List (List Char)) : Option (List Char) :=
  let u := unlabeledFrags parts
  if u.length == 1 then u.head?
  else if parts.length == 1 then parts.head?
  else if !u.isEmpty then u.head?
  else none

/-- The characters that can occur in a serialized ISO date. -/
def isoDigitsDash : List Char := ['0', '1', '2', '3', '4', '5', '6', '7', '8', '9', '-']

/-! ## Helper lemmas on the string model -/

theorem isPrefixOf_iff_exists (n : List Char) :
    ∀ l : List Char, n.isPrefixOf l = true ↔ ∃ t, l = n ++ t := by
  induction n with
  | nil =>
    intro l
    simp [List.isPrefixOf]
  | cons a n ih =>
    intro l
    cases l with
    | nil => simp [List.isPrefixOf]
    | cons b m =>
      simp only [List.isPrefixOf, Bool.and_eq_true, beq_iff_eq, ih, List.cons_append,
        List.cons.injEq]
      constructor
      · rintro ⟨rfl, t, rfl⟩
        exact ⟨t, rfl, rfl⟩
      · rintro ⟨t, rfl, rfl⟩
        exact ⟨rfl, t, rfl⟩

theorem pyContains_iff (n : List Char) :
    ∀ l : List Char, pyContains n l = true ↔ ∃ a b, l = a ++ n ++ b := by
  intro l
  induction l with
  | nil =>
    simp only [pyContains, List.isEmpty_iff]
    constructor
    · rintro rfl
      exact ⟨[], [], rfl⟩
    · rintro ⟨a, b, h⟩
      rcases List.append_eq_nil.mp h.symm with ⟨h1, rfl⟩
      rcases List.append_eq_nil.mp h1 with ⟨rfl, rfl⟩
      rfl
  | cons c rest ih =>
    simp only [pyContains, Bool.or_eq_true, isPrefixOf_iff_exists, ih]
    constructor
    · rintro (⟨t, ht⟩ | ⟨a, b, hb⟩)
      · exact ⟨[], t, by simpa using ht⟩
      · exact ⟨c :: a, b, by simp [hb]⟩
    · rintro ⟨a, b, hb⟩
      cases a with
      | nil =>
        left
        exact ⟨b, by simpa using hb⟩
      | cons d a2 =>
        right
        simp only [List.cons_append, List.cons.injEq] at hb
        exact ⟨a2, b, hb.2⟩

theorem pyContains_dropWhile (p : Char → Bool) (n : List Char) (hne : n ≠ [])
    (hns : ∀ c ∈ n, p c = false) :
    ∀ l : List Char, pyContains n l = true → pyContains n (l.dropWhile p) = true := by
  intro l h
  rw [pyContains_iff] at h
  obtain ⟨a, b, rfl⟩ := h
  rw [pyContains_iff]
  induction a with
  | nil =>
    cases n with
    | nil => exact absurd rfl hne
    | cons c m =>
      simp only [List.nil_append, List.cons_append, List.dropWhile_cons,
        hns c (by simp), Bool.false_eq_true, if_false]
      exact ⟨[], b, by simp⟩
  | cons d a2 ih =>
    simp only [List.cons_append, List.dropWhile_cons]
    cases hd : p d with
    | true =>
      simpa using ih
    | false =>
      exact ⟨d :: a2, b, by simp⟩

theorem pyContains_rdropWhile (p : Char → Bool) (n : List Char) (hne : n ≠ [])
    (hns : ∀ c ∈ n, p c = false) :
    ∀ l : List Char, pyContains n l = true → pyContains n (List.rdropWhile p l) = true := by
  intro l h
  rw [pyContains_iff] at h
  obtain ⟨a, b, rfl⟩ := h
  have h1 : pyContains n.reverse ((a ++ n ++ b).reverse.dropWhile p) = true := by
    apply pyContains_dropWhile p n.reverse (by simpa using hne)
      (fun c hc => hns c (by simpa using hc))
    rw [pyContains_iff]
    exact ⟨b.reverse, a.reverse, by simp⟩
  rw [pyContains_iff] at h1
  obtain ⟨u, v, huv⟩ := h1
  rw [pyContains_iff]
  refine ⟨v.reverse, u.reverse, ?_⟩
  unfold List.rdropWhile
  rw [huv]
  simp

theorem pyContains_pyStrip (n l : List Char) (hne : n ≠ [])
    (hns : ∀ c ∈ n, isPySpace c = false) (h : pyContains n l = true) :
    pyContains n (pyStrip l) = true :=
  pyContains_rdropWhile isPySpace n hne hns _
    (pyContains_dropWhile isPySpace n hne hns _ h)

/-! ## C3: cross-year inference asymmetry -/

/-- C3: `parse_range "08-30至01-06"` is context-sensitive: with context
"sub" the wrap-around range starts in BASE_YEAR − 1 = 2025 and ends in
BASE_YEAR = 2026, while with context "res" it starts in BASE_YEAR = 2026
and ends in BASE_YEAR + 1 = 2027. -/
theorem parse_range_cross_year_asymmetry :
    parse_range "08-30至01-06".toList "sub".toList =
      some ⟨some ⟨BASE_YEAR - 1, 8, 30⟩, some ⟨BASE_YEAR, 1, 6⟩⟩ ∧
    parse_range "08-30至01-06".toList "res".toList =
      some ⟨some ⟨BASE_YEAR, 8, 30⟩, some ⟨BASE_YEAR + 1, 1, 6⟩⟩ := by
  constructor <;> decide

/-! ## C4: cleaning of `（推测：品牌策划组）` -/

/-- C4 counterexample: cleaning the label extracted from
`（推测：品牌策划组）` yields `品牌策划组`, not `品牌策划`: the category
suffix `组` is NOT removed by the cleaning step. -/
theorem clean_label_keeps_suffix_counterexample :
    clean_label (extract_label "（推测：品牌策划组）".toList) = "品牌策划组".toList ∧
    "品牌策划组".toList ≠ "品牌策划".toList := by
  constructor <;> decide

/-- C4 amended: cleaning the label extracted from `（推测：品牌策划组）`
removes the noise token `推测` and the colon, yielding the cleaned label
`品牌策划组`; the suffix `组` is stripped only during key expansion, so the
key set contains both the cleaned label and its suffix-stripped form. -/
theorem clean_label_and_keys_of_presumed_branding :
    clean_label (extract_label "（推测：品牌策划组）".toList) = "品牌策划组".toList ∧
    label_keys "品牌策划组".toList = {"品牌策划组".toList, "品牌策划".toList} ∧
    label_keys (extract_label "（推测：品牌策划组）".toList) =
      {"品牌策划组".toList, "品牌策划".toList} := by
  refine ⟨by decide, by decide, by decide⟩

/-! ## C2: identity collisions in the final dedup pass -/

/-- C2 counterexample: two output rows with the same id but different
remaining fields; the dedup pass keeps only the first row, and the second
row's differing information is silently dropped (no merge, no record). -/
theorem dedup_by_id_drops_collision_counterexample :
    dedup_by_id [⟨"comp_a".toList, "04-30".toList⟩, ⟨"comp_a".toList, "05-15".toList⟩] =
      [⟨"comp_a".toList, "04-30".toList⟩] ∧
    (SeedRow.mk "comp_a".toList "05-15".toList) ≠
      (SeedRow.mk "comp_a".toList "04-30".toList) := by
  constructor <;> decide

theorem dedupGo_sublist (l : List SeedRow) :
    ∀ seen, (dedupGo seen l).Sublist l := by
  induction l with
  | nil => intro seen; simp [dedupGo]
  | cons o rest ih =>
    intro seen
    unfold dedupGo
    by_cases h : o.id ∈ seen
    · rw [if_pos h]
      exact (ih seen).cons o
    · rw [if_neg h]
      exact (ih (o.id :: seen)).cons₂ o

theorem dedupGo_nodup (l : List SeedRow) :
    ∀ seen, ((dedupGo seen l).map SeedRow.id).Nodup ∧
      ∀ r ∈ dedupGo seen l, r.id ∉ seen := by
  induction l with
  | nil => intro seen; simp [dedupGo]
  | cons o rest ih =>
    intro seen
    unfold dedupGo
    by_cases h : o.id ∈ seen
    · rw [if_pos h]
      exact ih seen
    · rw [if_neg h]
      obtain ⟨h1, h2⟩ := ih (o.id :: seen)
      refine ⟨?_, ?_⟩
      · simp only [List.map_cons, List.nodup_cons]
        refine ⟨?_, h1⟩
        intro hmem
        obtain ⟨r, hr, hrid⟩ := List.mem_map.mp hmem
        exact (h2 r hr) (by simp [hrid])
      · intro r hr
        rcases List.mem_cons.mp hr with rfl | hr2
        · exact h
        · intro hcon
          exact (h2 r hr2) (by simp [hcon])

theorem dedupGo_ids_toFinset (l : List SeedRow) :
    ∀ seen, ((dedupGo seen l).map SeedRow.id).toFinset =
      (l.map SeedRow.id).toFinset \ seen.toFinset := by
  induction l with
  | nil => intro seen; simp [dedupGo]
  | cons o rest ih =>
    intro seen
    unfold dedupGo
    by_cases h : o.id ∈ seen
    · rw [if_pos h, ih seen]
      ext x
      simp only [List.map_cons, List.toFinset_cons, Finset.mem_sdiff, Finset.mem_insert,
        List.mem_toFinset]
      constructor
      · rintro ⟨hx, hxs⟩
        exact ⟨Or.inr hx, hxs⟩
      · rintro ⟨rfl | hx, hxs⟩
        · exact absurd h hxs
        · exact ⟨hx, hxs⟩
    · rw [if_neg h, List.map_cons, List.toFinset_cons, ih (o.id :: seen)]
      ext x
      simp only [Finset.mem_insert, Finset.mem_sdiff, List.mem_toFinset, List.map_cons,
        List.toFinset_cons, List.mem_cons]
      constructor
      · rintro (rfl | ⟨hx, hxs⟩)
        · exact ⟨Or.inl rfl, h⟩
        · exact ⟨Or.inr hx, fun hc => hxs (Or.inr hc)⟩
      · rintro ⟨rfl | hx, hxs⟩
        · exact Or.inl rfl
        · by_cases hxo : x = o.id
          · exact Or.inl hxo
          · exact Or.inr ⟨hx, fun hc => hc.elim hxo hxs⟩

/-- C2 amended: the final dedup pass resolves identity collisions by
keeping the first row with each id and silently dropping later colliding
rows: the result has pairwise-distinct ids, is a sublist of the input
(first-occurrence order, no merging of fields), and covers exactly the ids
of the input. -/
theorem dedup_by_id_first_wins (rows : List SeedRow) :
    ((dedup_by_id rows).map SeedRow.id).Nodup ∧
    (dedup_by_id rows).Sublist rows ∧
    ((dedup_by_id rows).map SeedRow.id).toFinset = (rows.map SeedRow.id).toFinset := by
  refine ⟨(dedupGo_nodup rows []).1, dedupGo_sublist rows [], ?_⟩
  rw [dedup_by_id, dedupGo_ids_toFinset rows []]
  simp

/-! ## C1: the unlabeled pseudo-variant branch of `best_match` -/

/-- C1 counterexample: with two fragments, both lacking a label, the
matcher does not return none — it returns the first unlabeled fragment. -/
theorem best_match_unlabeled_ambiguous_counterexample :
    (unlabeledFrags ["a".toList, "b".toList]).length = 2 ∧
    best_match ["a".toList, "b".toList] ∅ true = some "a".toList := by
  constructor <;> decide

/-- C1 amended: for the unlabeled pseudo-variant (empty key set,
`want_unlabeled` true): a sole unlabeled fragment wins; else a sole
fragment wins; else, when at least one fragment lacks a label, the first
unlabeled fragment wins; only otherwise does the matcher return none. -/
theorem best_match_unlabeled_empty_keys (parts : List (List Char)) :
    best_match parts ∅ true = unlabeled_choice_spec parts := by
  cases parts with
  | nil => decide
  | cons a l =>
    unfold best_match unlabeled_choice_spec
    simp only [List.isEmpty_cons, Bool.false_eq_true, if_false, if_pos rfl,
      Bool.true_and]
    rfl

/-! ## C7: separators inside balanced parentheses never split -/

theorem dropWhile_rdropWhile_dropWhile (p : Char → Bool) (l : List Char) :
    List.dropWhile p (List.rdropWhile p (List.dropWhile p l)) =
      List.rdropWhile p (List.dropWhile p l) := by
  rw [List.dropWhile_eq_self_iff]
  intro h0
  have hpre : List.rdropWhile p (List.dropWhile p l) <+: List.dropWhile p l :=
    List.rdropWhile_prefix p (List.dropWhile p l)
  have h1 : 0 < (List.dropWhile p l).length := lt_of_lt_of_le h0 hpre.length_le
  have hg := List.IsPrefix.getElem hpre
    (show 0 < (List.rdropWhile p (List.dropWhile p l)).length from h0)
  simp only [List.get_eq_getElem]
  rw [hg]
  have hnot := List.dropWhile_get_zero_not p l h1
  simpa using hnot

theorem pyStrip_idem (l : List Char) : pyStrip (pyStrip l) = pyStrip l := by
  unfold pyStrip
  rw [dropWhile_rdropWhile_dropWhile, List.rdropWhile_idempotent]

theorem scFold_no_split (l : List Char) :
    ∀ (out : List (List Char)) (buf : List Char) (d : Nat), noTopSep d l = true →
      l.foldl scStep (out, buf, d) = (out, buf ++ l, l.foldl depthStep d) := by
  induction l with
  | nil =>
    intro out buf d _
    simp
  | cons ch rest ih =>
    intro out buf d h
    unfold noTopSep at h
    rw [Bool.and_eq_true] at h
    obtain ⟨h1, h2⟩ := h
    have hstep : scStep (out, buf, d) ch = (out, buf ++ [ch], depthStep d ch) := by
      unfold scStep
      rw [Bool.not_eq_eq_eq_not, Bool.not_true] at h1
      simp only [h1, Bool.false_eq_true, if_false]
    simp only [List.foldl_cons, hstep, ih _ _ _ h2, List.append_assoc,
      List.singleton_append]

/-- C7 counterexample: the empty input vacuously has all separators inside
balanced parentheses, yet the segmenter returns no fragment at all rather
than one fragment equal to the trimmed input. -/
theorem split_cell_empty_counterexample :
    sepsOnlyInParens (pyStrip "".toList) = true ∧
    split_cell "".toList ≠ [pyStrip "".toList] := by
  constructor <;> decide

/-- C7 amended: for every input whose trimmed form is non-empty and in
which every top-level separator occurs only inside balanced parentheses,
`split_cell` returns exactly one fragment: the trimmed input. -/
theorem split_cell_balanced_single_fragment (cell : List Char)
    (hne : (pyStrip cell).isEmpty = false)
    (hsep : sepsOnlyInParens (pyStrip cell) = true) :
    split_cell cell = [pyStrip cell] := by
  have hcell : cell.isEmpty = false := by
    cases cell with
    | nil => simp [pyStrip] at hne
    | cons a l => rfl
  unfold split_cell
  rw [hcell]
  simp only [Bool.false_eq_true, if_false]
  rw [hne]
  simp only [Bool.false_eq_true, if_false]
  unfold sepsOnlyInParens at hsep
  rw [Bool.and_eq_true] at hsep
  rw [scFold_no_split _ _ _ _ hsep.2]
  simp only [List.nil_append]
  rw [pyStrip_idem, hne]
  simp

theorem split_cell_balanced_single_fragment_witness :
    (pyStrip "A（x,y）B".toList).isEmpty = false ∧
    sepsOnlyInParens (pyStrip "A（x,y）B".toList) = true ∧
    split_cell "A（x,y）B".toList = [pyStrip "A（x,y）B".toList] :=
  ⟨by decide, by decide, split_cell_balanced_single_fragment _ (by decide) (by decide)⟩

/-! ## C5: the `未公布` sentinel short-circuits date parsing -/

/-- C5: any input containing the "not yet announced" sentinel `未公布`
parses to the absent/absent range under every context, regardless of any
dates also present in the string. -/
theorem parse_range_sentinel_absorbs (seg context : List Char)
    (h : pyContains sentinelNotAnnounced seg = true) :
    parse_range seg context = some ⟨none, none⟩ := by
  unfold parse_range
  cases hseg : seg.isEmpty with
  | true => simp
  | false =>
    have hs : pyContains sentinelNotAnnounced (pyStrip seg) = true :=
      pyContains_pyStrip _ _ (by decide) (by decide) h
    simp [hs]

theorem parse_range_sentinel_absorbs_witness :
    pyContains sentinelNotAnnounced "2026-03-01至2026-04-05未公布".toList = true ∧
    parse_range "2026-03-01至2026-04-05未公布".toList "res".toList = some ⟨none, none⟩ :=
  ⟨by decide, parse_range_sentinel_absorbs _ _ (by decide)⟩

/-! ## C8: round-trip of serialized date ranges -/

theorem dchar_mem_digits (n : Nat) :
    dchar n ∈ ['0', '1', '2', '3', '4', '5', '6', '7', '8', '9'] := by
  unfold dchar
  split_ifs <;> simp

theorem isDigit_dchar (n : Nat) : (dchar n).isDigit = true := by
  unfold dchar
  split_ifs <;> decide

theorem dval_dchar (n : Nat) : dval (dchar n) = n % 10 := by
  have hb : n % 10 < 10 := Nat.mod_lt n (by omega)
  unfold dchar
  split_ifs with h0 h1 h2 h3 h4 h5 h6 h7 h8
  · rw [h0]; decide
  · rw [h1]; decide
  · rw [h2]; decide
  · rw [h3]; decide
  · rw [h4]; decide
  · rw [h5]; decide
  · rw [h6]; decide
  · rw [h7]; decide
  · rw [h8]; decide
  · have h9 : n % 10 = 9 := by omega
    rw [h9]; decide

theorem dchar_mem_isoDigitsDash (n : Nat) : dchar n ∈ isoDigitsDash := by
  unfold dchar
  split_ifs <;> simp [isoDigitsDash]

theorem isoChars_subset (dt : PyDate) : ∀ c ∈ isoChars dt, c ∈ isoDigitsDash := by
  intro c hc
  unfold isoChars pad4 pad2 at hc
  simp only [List.cons_append, List.nil_append, List.mem_cons, List.not_mem_nil,
    or_false] at hc
  rcases hc with rfl | rfl | rfl | rfl | rfl | rfl | rfl | rfl | rfl | rfl
  · exact dchar_mem_isoDigitsDash _
  · exact dchar_mem_isoDigitsDash _
  · exact dchar_mem_isoDigitsDash _
  · exact dchar_mem_isoDigitsDash _
  · decide
  · exact dchar_mem_isoDigitsDash _
  · exact dchar_mem_isoDigitsDash _
  · decide
  · exact dchar_mem_isoDigitsDash _
  · exact dchar_mem_isoDigitsDash _

theorem not_mem_of_alphabet {A l : List Char} (hsub : ∀ c ∈ l, c ∈ A) {x : Char}
    (hx : x ∉ A) : x ∉ l :=
  fun h => hx (hsub x h)

theorem pyContains_eq_false (n l : List Char) (x : Char) (hx : x ∈ n)
    (hl : x ∉ l) : pyContains n l = false := by
  cases hc : pyContains n l with
  | false => rfl
  | true =>
    exfalso
    rw [pyContains_iff] at hc
    obtain ⟨a, b, rfl⟩ := hc
    exact hl (by simp [hx])

theorem pyStrip_eq_self_of (l : List Char) (h : ∀ c ∈ l, isPySpace c = false) :
    pyStrip l = l := by
  unfold pyStrip
  have hdrop : List.dropWhile isPySpace l = l := by
    rw [List.dropWhile_eq_self_iff]
    intro hl
    have hm := h (l.get ⟨0, hl⟩) (l.get_mem 0 hl)
    simpa using hm
  rw [hdrop, List.rdropWhile_eq_self_iff]
  intro hl
  have hm := h (l.getLast hl) (l.getLast_mem hl)
  simp [hm]

theorem removeWs_eq_self_of (l : List Char) (h : ∀ c ∈ l, isPySpace c = false) :
    removeWs l = l := by
  unfold removeWs
  rw [List.filter_eq_self]
  intro a ha
  rw [h a ha]
  rfl

theorem removeParensF_eq_self_of (fuel : Nat) :
    ∀ l : List Char, (∀ c ∈ l, isParenChar c = false) → removeParensF fuel l = l := by
  induction fuel with
  | zero => intro l _; rfl
  | succ f ih =>
    intro l h
    cases l with
    | nil => rfl
    | cons c rest =>
      have hopen : isOpenParen c = false := by
        have hp := h c (by simp)
        unfold isParenChar at hp
        rw [Bool.or_eq_false_iff] at hp
        exact hp.1
      unfold removeParensF
      rw [hopen]
      simp only [Bool.false_eq_true, if_false]
      rw [ih rest (fun x hx => h x (by simp [hx]))]

theorem removeParens_eq_self_of (l : List Char)
    (h : ∀ c ∈ l, isParenChar c = false) : removeParens l = l :=
  removeParensF_eq_self_of l.length l h

theorem splitFirst_single_char (c : Char) (r : List Char) :
    ∀ l : List Char, c ∉ l → splitFirst [c] (l ++ c :: r) = (l, r) := by
  intro l
  induction l with
  | nil =>
    intro _
    unfold splitFirst
    simp [List.isPrefixOf]
  | cons a l2 ih =>
    intro h
    have hne : (c == a) = false := by
      have : ¬c = a := fun hc => h (by simp [hc])
      simp [this]
    unfold splitFirst
    simp only [List.cons_append, List.isPrefixOf, hne, Bool.false_and,
      Bool.false_eq_true, if_false]
    rw [ih (fun hc => h (by simp [hc]))]

theorem mkDate_valid (y m d : Nat) (h : isValidDate y m d = true) :
    mkDate y m d = some ⟨y, m, d⟩ := by
  unfold mkDate
  rw [h]
  simp

theorem daysInMonth_le (y m : Nat) : daysInMonth y m ≤ 31 := by
  unfold daysInMonth
  split_ifs <;> omega

theorem isValidDate_bounds (y m d : Nat) (h : isValidDate y m d = true) :
    y ≤ 9999 ∧ m ≤ 99 ∧ d ≤ 99 := by
  unfold isValidDate at h
  simp only [Bool.and_eq_true, decide_eq_true_eq] at h
  have hd := daysInMonth_le y m
  omega

theorem searchFull_iso (y m d : Nat) (hy : y ≤ 9999) (hm : m ≤ 99) (hd : d ≤ 99) :
    searchFull (isoChars ⟨y, m, d⟩) = some (y, m, d) := by
  show searchFull
    (dchar (y / 1000) :: dchar (y / 100) :: dchar (y / 10) :: dchar y :: '-' ::
      dchar (m / 10) :: dchar m :: '-' :: dchar (d / 10) :: dchar d :: []) =
    some (y, m, d)
  have e1 : ((dval (dchar (y / 1000)) * 10 + dval (dchar (y / 100))) * 10 +
      dval (dchar (y / 10))) * 10 + dval (dchar y) = y := by
    simp only [dval_dchar]
    omega
  have e2 : dval (dchar (m / 10)) * 10 + dval (dchar m) = m := by
    simp only [dval_dchar]
    omega
  have e3 : dval (dchar (d / 10)) * 10 + dval (dchar d) = d := by
    simp only [dval_dchar]
    omega
  simp [searchFull, matchFull, isDigit_dchar, e1, e2, e3]

/-- C8 counterexample: `parse_range` produces the end-only range
(absent, 2026-01-06) from `至2026-01-06`, but serializing that range (a
single ISO date, no `至` since only one end is present) re-parses as the
single-date range (2026-01-06, 2026-01-06), not the original. -/
theorem parse_range_roundtrip_counterexample :
    parse_range "至2026-01-06".toList "reg".toList =
      some ⟨none, some ⟨2026, 1, 6⟩⟩ ∧
    parse_range (rangeToText ⟨none, some ⟨2026, 1, 6⟩⟩) "reg".toList ≠
      some ⟨none, some ⟨2026, 1, 6⟩⟩ := by
  constructor <;> decide

/-- C8 amended: for every date range with BOTH ends present (built from
valid calendar dates, as all produced ranges are), serializing to ISO text
joined by `至` and re-parsing yields the same range under every context.
Produced ranges with only an end date do not round-trip (see the
counterexample). -/
theorem parse_range_roundtrip_both_ends (y1 m1 d1 y2 m2 d2 : Nat)
    (context : List Char)
    (h1 : isValidDate y1 m1 d1 = true) (h2 : isValidDate y2 m2 d2 = true) :
    parse_range (rangeToText ⟨some ⟨y1, m1, d1⟩, some ⟨y2, m2, d2⟩⟩) context =
      some ⟨some ⟨y1, m1, d1⟩, some ⟨y2, m2, d2⟩⟩ := by
  obtain ⟨hy1, hm1, hd1⟩ := isValidDate_bounds _ _ _ h1
  obtain ⟨hy2, hm2, hd2⟩ := isValidDate_bounds _ _ _ h2
  have hR : rangeToText ⟨some ⟨y1, m1, d1⟩, some ⟨y2, m2, d2⟩⟩ =
      isoChars ⟨y1, m1, d1⟩ ++ '至' :: isoChars ⟨y2, m2, d2⟩ := rfl
  rw [hR]
  set L := isoChars (PyDate.mk y1 m1 d1) with hL
  set Rt := isoChars (PyDate.mk y2 m2 d2) with hRt
  have hsubL : ∀ c ∈ L, c ∈ isoDigitsDash := isoChars_subset _
  have hsubRt : ∀ c ∈ Rt, c ∈ isoDigitsDash := isoChars_subset _
  have hsub : ∀ c ∈ L ++ '至' :: Rt, c ∈ '至' :: isoDigitsDash := by
    intro c hc
    rcases List.mem_append.mp hc with hc1 | hc2
    · exact List.mem_cons_of_mem _ (hsubL c hc1)
    · rcases List.mem_cons.mp hc2 with rfl | hc3
      · exact List.mem_cons_self _ _
      · exact List.mem_cons_of_mem _ (hsubRt c hc3)
  have hnospace : ∀ c ∈ L ++ '至' :: Rt, isPySpace c = false := by
    intro c hc
    have hA : ∀ x ∈ '至' :: isoDigitsDash, isPySpace x = false := by decide
    exact hA c (hsub c hc)
  have hnoparen : ∀ c ∈ L ++ '至' :: Rt, isParenChar c = false := by
    intro c hc
    have hA : ∀ x ∈ '至' :: isoDigitsDash, isParenChar x = false := by decide
    exact hA c (hsub c hc)
  have hemp : (L ++ '至' :: Rt).isEmpty = false := by
    rw [hL]
    rfl
  have hstrip : pyStrip (L ++ '至' :: Rt) = L ++ '至' :: Rt :=
    pyStrip_eq_self_of _ hnospace
  have hsen : pyContains sentinelNotAnnounced (L ++ '至' :: Rt) = false := by
    apply pyContains_eq_false _ _ '未' (by decide)
    apply not_mem_of_alphabet hsub
    decide
  have hstop : pyContains stopMark (L ++ '至' :: Rt) = false := by
    apply pyContains_eq_false _ _ '止' (by decide)
    apply not_mem_of_alphabet hsub
    decide
  have hcut : pyContains cutoffMark (L ++ '至' :: Rt) = false := by
    apply pyContains_eq_false _ _ '截' (by decide)
    apply not_mem_of_alphabet hsub
    decide
  have hpre : preprocessed (L ++ '至' :: Rt) = L ++ '至' :: Rt := by
    unfold preprocessed
    simp only [hstrip, removeParens_eq_self_of _ hnoparen,
      removeWs_eq_self_of _ hnospace, hstop, hcut, Bool.false_and,
      Bool.false_eq_true, if_false]
  have hat : pyContains atMark (L ++ '至' :: Rt) = true := by
    rw [pyContains_iff]
    exact ⟨L, Rt, by simp [atMark]⟩
  have hsplit : splitFirst atMark (L ++ '至' :: Rt) = (L, Rt) := by
    have hmark : atMark = ['至'] := rfl
    rw [hmark]
    apply splitFirst_single_char
    apply not_mem_of_alphabet hsubL
    decide
  have hsfR : searchFull Rt = some (y2, m2, d2) := searchFull_iso _ _ _ hy2 hm2 hd2
  have hsfL : searchFull L = some (y1, m1, d1) := searchFull_iso _ _ _ hy1 hm1 hd1
  unfold parse_range
  simp only [hemp, Bool.false_eq_true, if_false, hstrip, hsen, Bool.or_self,
    hpre, hat, if_true, hsplit]
  unfold parseRangeAt
  simp [hsfR, hsfL, mkDate_valid _ _ _ h1, mkDate_valid _ _ _ h2]

theorem parse_range_roundtrip_both_ends_witness :
    isValidDate 2026 3 1 = true ∧ isValidDate 2026 3 10 = true ∧
    parse_range (rangeToText ⟨some ⟨2026, 3, 1⟩, some ⟨2026, 3, 10⟩⟩) "reg".toList =
      some ⟨some ⟨2026, 3, 1⟩, some ⟨2026, 3, 10⟩⟩ :=
  ⟨by decide, by decide,
    parse_range_roundtrip_both_ends 2026 3 1 2026 3 10 _ (by decide) (by decide)⟩

/-! ## C6: invalid calendar components fail hard -/

/-- C9: `官方` survives cleaning as a non-empty label (so it becomes a
named variant), yet `label_keys` blacklists it, leaving an empty key set;
hence a variant labeled `（官方）` is matched through the empty-key-set
branch of `best_match` (sole-fragment fallback), never by key
intersection. -/
theorem guanfang_label_empty_keys :
    clean_label (extract_label "（官方）".toList) = "官方".toList ∧
    "官方".toList ≠ ([] : List Char) ∧
    label_keys "官方".toList = ∅ ∧
    ∀ parts : List (List Char),
      best_match parts (label_keys "官方".toList) false =
        (if parts.length == 1 then parts.head? else none) := by
  refine ⟨by decide, by decide, by decide, ?_⟩
  intro parts
  have hk : label_keys "官方".toList = ∅ := by decide
  rw [hk]
  cases parts with
  | nil => decide
  | cons a l =>
    unfold best_match
    simp only [List.isEmpty_cons, Bool.false_eq_true, if_false, if_pos rfl,
      Bool.false_and, Bool.and_self]
    rfl

/-! ## C10: `best_match` returns none or an element of its input -/

theorem headOpt_cases (l : List (List Char)) :
    l.head? = none ∨ ∃ x, x ∈ l ∧ l.head? = some x := by
  cases l with
  | nil => exact Or.inl rfl
  | cons a t => exact Or.inr ⟨a, by simp, rfl⟩

theorem bmFold_mem (vkeys : Finset (List Char)) (l : List (List Char)) :
    ∀ acc : Option (List Char) × Nat,
      (l.foldl (bmStep vkeys) acc).1 = acc.1 ∨
      ∃ p, p ∈ l ∧ (l.foldl (bmStep vkeys) acc).1 = some p := by
  induction l with
  | nil => intro acc; exact Or.inl rfl
  | cons a t ih =>
    intro acc
    simp only [List.foldl_cons]
    rcases ih (bmStep vkeys acc a) with h | ⟨p, hp, h⟩
    · rw [h]
      unfold bmStep
      by_cases hs : acc.2 < (option_keyset a ∩ vkeys).card
      · exact Or.inr ⟨a, by simp, by rw [if_pos hs]⟩
      · rw [if_neg hs]
        exact Or.inl rfl
    · exact Or.inr ⟨p, by simp [hp], h⟩

/-- C10: for every fragment list, key set and flag, `best_match` either
returns none or returns one of the input fragments; it never fabricates a
fragment and (being a total function on all such inputs, including the
empty-key-set branch with `want_unlabeled` false, where Python's
short-circuit `and` skips the unbound list) never raises. -/
theorem best_match_mem_or_none (parts : List (List Char))
    (vkeys : Finset (List Char)) (w : Bool) :
    best_match parts vkeys w = none ∨
    ∃ p, p ∈ parts ∧ best_match parts vkeys w = some p := by
  unfold best_match
  cases hp : parts.isEmpty with
  | true => simp
  | false =>
    simp only [Bool.false_eq_true, if_false]
    by_cases hv : vkeys = ∅
    · rw [if_pos hv]
      have hu : ∀ x, (unlabeledFrags parts).head? = some x → x ∈ parts := by
        intro x hx
        rcases headOpt_cases (unlabeledFrags parts) with h0 | ⟨y, hy, h0⟩
        · rw [h0] at hx; cases hx
        · rw [h0] at hx
          cases hx
          exact List.mem_of_mem_filter hy
      have hph : ∀ x, parts.head? = some x → x ∈ parts := by
        intro x hx
        rcases headOpt_cases parts with h0 | ⟨y, hy, h0⟩
        · rw [h0] at hx; cases hx
        · rw [h0] at hx; cases hx; exact hy
      split_ifs
      · rcases headOpt_cases (unlabeledFrags parts) with h0 | ⟨y, hy, h0⟩
        · exact Or.inl h0
        · exact Or.inr ⟨y, hu y h0, h0⟩
      · rcases headOpt_cases parts with h0 | ⟨y, hy, h0⟩
        · exact Or.inl h0
        · exact Or.inr ⟨y, hy, h0⟩
      · rcases headOpt_cases (unlabeledFrags parts) with h0 | ⟨y, hy, h0⟩
        · exact Or.inl h0
        · exact Or.inr ⟨y, hu y h0, h0⟩
      · exact Or.inl rfl
    · rw [if_neg hv]
      rcases bmFold_mem vkeys parts ((none : Option (List Char)), 0) with h | ⟨p, hp2, h⟩
      · split_ifs
        · exact Or.inl h
        · rcases headOpt_cases parts with h0 | ⟨y, hy, h0⟩
          · exact Or.inl h0
          · exact Or.inr ⟨y, hy, h0⟩
        · exact Or.inl rfl
      · split_ifs
        · exact Or.inr ⟨p, hp2, h⟩
        · rcases headOpt_cases parts with h0 | ⟨y, hy, h0⟩
          · exact Or.inl h0
          · exact Or.inr ⟨y, hy, h0⟩
        · exact Or.inl rfl
